import Mathlib

/-!
Shallow embedding of the resume-review pipeline in `src/app.py` and proofs
about its helper functions.  Python strings are modelled as `List Char`
(`Str`), Python `dict` (insertion-ordered) as an association list
`List (Str × Str)`, and the external text-generation capability as an
explicitly passed function; a `try/except` around a generation call is
modelled with `Except`.  Each embedded function keeps the name of the
Python function it translates.
-/

set_option maxRecDepth 20000

/-- Python strings, modelled as lists of characters. -/
abbrev Str := List Char

/-- The six ASCII whitespace characters recognised by Python `str.strip()`
and `str.split()` (space, tab, newline, carriage return, vertical tab,
form feed). -/
def isPyWhitespace (c : Char) : Bool :=
  c = ' ' || c = '\t' || c = '\n' || c = '\r' || c = Char.ofNat 11 || c = Char.ofNat 12

/-- Python `str.strip()`: remove leading and trailing whitespace. -/
def pyStrip (s : Str) : Str :=
  ((s.dropWhile isPyWhitespace).reverse.dropWhile isPyWhitespace).reverse

/-- Python `str.split(sep)` for a one-character separator: split at every
occurrence of `sep`, keeping empty segments (so the result always has one
more element than the number of separators, and is never empty). -/
def splitOnChar (sep : Char) : Str → List Str
  | [] => [[]]
  | c :: rest =>
    match splitOnChar sep rest with
    | [] => [[]]
    | l :: ls => if c = sep then [] :: l :: ls else (c :: l) :: ls

/-- Python `sep.join(parts)` for a one-character separator. -/
def joinWith (c : Char) : List Str → Str
  | [] => []
  | w :: ws =>
    match ws with
    | [] => w
    | _ :: _ => w ++ c :: joinWith c ws

/-- Python `text.split("\n")`. -/
def splitNl (s : Str) : List Str := splitOnChar '\n' s

/-- Worker for Python `str.split()` (no argument): `cur` is the word being
accumulated. -/
def pySplitGo : Str → Str → List Str
  | [], cur => if cur = [] then [] else [cur]
  | c :: rest, cur =>
    if isPyWhitespace c then
      if cur = [] then pySplitGo rest [] else cur :: pySplitGo rest []
    else pySplitGo rest (cur ++ [c])

/-- Python `str.split()` with no argument: split on runs of whitespace,
discarding empty tokens. -/
def pySplit (s : Str) : List Str := pySplitGo s []

/-- Python `str.upper()` on ASCII text. -/
def pyUpper (s : Str) : Str := s.map Char.toUpper

/-- MIME type string `"application/pdf"` compared against in `extract_text`. -/
def pdfMime : Str := "application/pdf".data

/-- MIME type string for DOCX compared against in `extract_text`. -/
def docxMime : Str :=
  "application/vnd.openxmlformats-officedocument.wordprocessingml.document".data

/-- Model of the Streamlit upload handle consumed by `extract_text`: the
declared media type, the text of each PDF page as `PyPDF2` would extract it,
and the text of each DOCX paragraph as `python-docx` would yield it. -/
structure UploadedFile where
  ftype : Str
  pdfPages : List Str
  docParagraphs : List Str

/-- Embedding of `extract_text` (src/app.py lines 10-22): PDF pages are
concatenated each followed by a newline; DOCX paragraphs are joined with
newlines; any other declared media type yields the empty string. -/
def extract_text (f : UploadedFile) : Str :=
  if f.ftype = pdfMime then (f.pdfPages.map (fun p => p ++ ['\n'])).flatten
  else if f.ftype = docxMime then joinWith '\n' f.docParagraphs
  else []

/-- The fixed header vocabulary of `split_sections` (src/app.py line 32). -/
def headerVocab : List Str :=
  ["SUMMARY".data, "EXPERIENCE".data, "SKILLS".data, "PROJECTS".data, "EDUCATION".data]

/-- The header form of a line: `line.strip().upper()` (src/app.py line 31). -/
def toHeader (line : Str) : Str := pyUpper (pyStrip line)

/-- Python `sections[k] = ""` on an insertion-ordered dict: replace the value
of an existing key in place, otherwise append the key at the end. -/
def setSection : List (Str × Str) → Str → List (Str × Str)
  | [], k => [(k, [])]
  | p :: rest, k => if p.1 = k then (k, []) :: rest else p :: setSection rest k

/-- Python `sections[k] += line + "\n"` on an insertion-ordered dict
(the key is always present when `split_sections` executes this). -/
def appendLine : List (Str × Str) → Str → Str → List (Str × Str)
  | [], _, _ => []
  | p :: rest, k, l =>
    if p.1 = k then (p.1, p.2 ++ l ++ ['\n']) :: rest else p :: appendLine rest k l

/-- First-match lookup in the association-list model of a Python dict. -/
def lookupSec (m : List (Str × Str)) (k : Str) : Option Str :=
  match m with
  | [] => none
  | p :: rest => if p.1 = k then some p.2 else lookupSec rest k

/-- The per-line loop of `split_sections` (src/app.py lines 30-36). -/
def splitSectionsLoop : List Str → Str → List (Str × Str) → List (Str × Str)
  | [], _, m => m
  | line :: rest, cur, m =>
    if toHeader line ∈ headerVocab then
      splitSectionsLoop rest (toHeader line) (setSection m (toHeader line))
    else
      splitSectionsLoop rest cur (appendLine m cur line)

/-- Embedding of `split_sections` (src/app.py lines 24-37): the dict starts
as `{"SUMMARY": ""}` with the cursor on `SUMMARY`, then every line either
switches the cursor (resetting that section) or is appended, with a newline,
to the current section. -/
def split_sections (text : Str) : List (Str × Str) :=
  splitSectionsLoop (splitNl text) "SUMMARY".data [("SUMMARY".data, [])]

/-- The grouping loop of `chunk_text`: consecutive groups of `n` words
(the Python `range(0, len(words), max_tokens)` slicing, for `n ≥ 1`). -/
def chunkGroups (n : Nat) : List Str → List (List Str)
  | [] => []
  | w :: ws => (w :: ws.take (n - 1)) :: chunkGroups n (ws.drop (n - 1))
termination_by l => l.length
decreasing_by simp [List.length_drop]; omega

/-- Embedding of `chunk_text` (src/app.py lines 39-45): split the text into
whitespace-delimited words, group them into consecutive runs of at most
`maxTokens` words, and rejoin each group with single spaces. -/
def chunk_text (text : Str) (maxTokens : Nat) : List Str :=
  (chunkGroups maxTokens (pySplit text)).map (joinWith ' ')

/-- The prompt built for each chunk in `rewrite_section`
(src/app.py lines 54-62). -/
def mkPrompt (name chunk : Str) : Str :=
  "\nRewrite this ".data ++ name
    ++ " section for a professional, ATS-friendly resume.\n- Use impact-oriented language and action verbs\n- Add metrics where possible\n- Group skills logically\n- Make it concise and professional\nSection:\n".data
    ++ chunk ++ ['\n']

/-- The fixed message returned for a blank section (src/app.py line 50). -/
def missingMsg (name : Str) : Str := name ++ " section is missing or empty.".data

/-- The inline failure marker prefix of `rewrite_section`
(src/app.py line 67). -/
def errMarker : Str := "Error analyzing chunk: ".data

/-- The per-chunk loop of `rewrite_section` (src/app.py lines 53-67): one
generation call per chunk; a successful response is stripped and appended
with a newline, a failing call contributes the inline error marker followed
by the failure description.  The second component counts generation calls. -/
def rewriteLoop (name : Str) (analyzer : Str → Except Str Str) : List Str → Str × Nat
  | [] => ([], 0)
  | chunk :: rest =>
    let piece :=
      match analyzer (mkPrompt name chunk) with
      | Except.ok r => pyStrip r ++ ['\n']
      | Except.error e => errMarker ++ e ++ ['\n']
    let acc := rewriteLoop name analyzer rest
    (piece ++ acc.1, acc.2 + 1)

/-- Embedding of `rewrite_section` (src/app.py lines 47-68): a blank section
short-circuits to the fixed message; otherwise the text is chunked with a
maximum of 300 words and the per-chunk outputs are concatenated, the whole
result stripped.  The `Nat` counts invocations of the generation
capability. -/
def rewrite_section (name text : Str) (analyzer : Str → Except Str Str) : Str × Nat :=
  if pyStrip text = [] then (missingMsg name, 0)
  else
    let acc := rewriteLoop name analyzer (chunk_text text 300)
    (pyStrip acc.1, acc.2)

/-- The role-inference prompt of `infer_role_keywords` (src/app.py line 80):
the literal instruction followed by the first 1000 characters of the text. -/
def prompt_role (text : Str) : Str :=
  "Analyze this resume and infer the most probable job role. Reply only with role name: ".data
    ++ text.take 1000

/-- The keyword-request prompt of `infer_role_keywords` (src/app.py line 83). -/
def prompt_keywords (role : Str) : Str :=
  "List 10–15 important keywords for a ".data ++ role
    ++ " role. Reply with comma-separated keywords only.".data

/-- The keyword parsing of src/app.py line 85: split the response on commas,
strip each token, keep the nonempty ones in order.  No deduplication is
performed. -/
def parse_keywords (response : Str) : List Str :=
  ((splitOnChar ',' response).map pyStrip).filter (fun t => !(t == []))

/-- Embedding of `infer_role_keywords` (src/app.py lines 78-86): one
generation call infers the role (response stripped), a second requests the
keywords; the result carries the role, the parsed keyword list, and the
number of completed generation calls.  The code has no `try/except` here,
so a failing call propagates as `Except.error`. -/
def infer_role_keywords (text : Str) (analyzer : Str → Except Str Str) :
    Except Str (Str × List Str × Nat) :=
  match analyzer (prompt_role text) with
  | Except.error e => Except.error e
  | Except.ok r1 =>
    match analyzer (prompt_keywords (pyStrip r1)) with
    | Except.error e => Except.error e
    | Except.ok r2 => Except.ok (pyStrip r1, parse_keywords r2, 2)

/-- Python regex word characters (`\w`) restricted to ASCII: letters, digits
and underscore. -/
def isWordChar (c : Char) : Bool := c.isAlphanum || c = '_'

/-- The character of `s` at index `j`, if any. -/
def charAt (s : Str) (j : Nat) : Option Char := (s.drop j).head?

/-- Whether an optional character is a word character (absent counts as
non-word, as at the ends of the subject string). -/
def isWordOpt : Option Char → Bool
  | none => false
  | some c => isWordChar c

/-- The regex `\b` assertion at position `j` of `s`: exactly one of the
characters adjacent to the position is a word character. -/
def boundaryAt (s : Str) (j : Nat) : Bool :=
  isWordOpt (if j = 0 then none else charAt s (j - 1)) != isWordOpt (charAt s j)

/-- Semantics of `re.search(rf"\b{kw}\b", text, re.I)` (src/app.py line 89)
for a keyword free of regex metacharacters (ASCII letters, digits, spaces,
underscores — the shape produced by the keyword workflow): some position of
`text` starts a case-insensitive occurrence of `kw` with a word boundary at
both ends. -/
def wbSearch (kw text : Str) : Bool :=
  (List.range (text.length + 1)).any fun i =>
    decide (((text.drop i).take kw.length).map Char.toLower = kw.map Char.toLower)
      && boundaryAt text i && boundaryAt text (i + kw.length)

/-- Embedding of `check_ats_keywords` (src/app.py lines 88-91): `present` is
the sublist of keywords found by the word-boundary search, `missing` the
sublist of keywords not (string-equal to one) in `present`. -/
def check_ats_keywords (text : Str) (keywords : List Str) : List Str × List Str :=
  let present := keywords.filter (fun kw => wbSearch kw text)
  let missing := keywords.filter (fun kw => !present.contains kw)
  (present, missing)

/-- `containsInOrder s xs`: the strings of `xs` occur in `s` as disjoint
segments, in the order listed. -/
def containsInOrder : Str → List Str → Prop
  | _, [] => True
  | s, x :: xs => ∃ a b, s = a ++ x ++ b ∧ containsInOrder b xs

/-- `subSeg x s`: `x` occurs in `s` as a contiguous segment. -/
def subSeg (x s : Str) : Prop := ∃ a b, s = a ++ x ++ b

/-! ### Basic lemmas about the Python string operations -/

lemma splitOnChar_ne_nil (sep : Char) (s : Str) : splitOnChar sep s ≠ [] := by
  cases s with
  | nil => simp [splitOnChar]
  | cons c rest =>
    unfold splitOnChar
    cases h : splitOnChar sep rest with
    | nil => simp
    | cons l ls =>
      by_cases hc : c = sep <;> simp [hc]

lemma joinWith_splitOnChar (sep : Char) (s : Str) :
    joinWith sep (splitOnChar sep s) = s := by
  induction s with
  | nil => rfl
  | cons c rest ih =>
    unfold splitOnChar
    cases h : splitOnChar sep rest with
    | nil => exact absurd h (splitOnChar_ne_nil sep rest)
    | cons l ls =>
      rw [h] at ih
      by_cases hc : c = sep
      · subst hc
        simpa [joinWith] using ih
      · simp only [if_neg hc]
        cases ls with
        | nil => simpa [joinWith] using ih
        | cons l2 ls2 => simpa [joinWith] using ih


lemma head_dropWhile_false (p : Char → Bool) (l : Str) (c : Char)
    (h : (l.dropWhile p).head? = some c) : p c = false := by
  induction l with
  | nil => simp [List.dropWhile] at h
  | cons a rest ih =>
    cases ha : p a with
    | true => rw [List.dropWhile_cons_of_pos ha] at h; exact ih h
    | false =>
      rw [List.dropWhile_cons_of_neg (by simp [ha])] at h
      simp at h
      subst h
      exact ha

lemma rstrip_decomp (m : Str) :
    m = (m.reverse.dropWhile isPyWhitespace).reverse ++
      (m.reverse.takeWhile isPyWhitespace).reverse := by
  conv_lhs => rw [← List.reverse_reverse m]
  rw [← List.reverse_append, List.takeWhile_append_dropWhile]

lemma pyStrip_decomp (s : Str) :
    ∃ u v, s = u ++ (pyStrip s ++ v) ∧ u.all isPyWhitespace ∧ v.all isPyWhitespace := by
  refine ⟨s.takeWhile isPyWhitespace,
    ((s.dropWhile isPyWhitespace).reverse.takeWhile isPyWhitespace).reverse, ?_, ?_, ?_⟩
  · conv_lhs => rw [← List.takeWhile_append_dropWhile (p := isPyWhitespace) (l := s)]
    congr 1
    exact rstrip_decomp (s.dropWhile isPyWhitespace)
  · simp only [List.all_eq_true]
    intro a ha
    exact List.mem_takeWhile_imp ha
  · simp only [List.all_eq_true]
    intro a ha
    rw [List.mem_reverse] at ha
    exact List.mem_takeWhile_imp ha

lemma pyStrip_head (s : Str) (c : Char) (h : (pyStrip s).head? = some c) :
    isPyWhitespace c = false := by
  have hd := rstrip_decomp (s.dropWhile isPyWhitespace)
  have hhead : (s.dropWhile isPyWhitespace).head? = some c := by
    rw [hd]
    cases hcase : pyStrip s with
    | nil => rw [hcase] at h; simp at h
    | cons d ds =>
      rw [hcase] at h
      simp at h
      have : ((s.dropWhile isPyWhitespace).reverse.dropWhile isPyWhitespace).reverse
          = d :: ds := hcase
      rw [this]
      simpa using h
  exact head_dropWhile_false isPyWhitespace s c hhead

lemma pyStrip_getLast (s : Str) (c : Char) (h : (pyStrip s).getLast? = some c) :
    isPyWhitespace c = false := by
  unfold pyStrip at h
  rw [List.getLast?_reverse] at h
  exact head_dropWhile_false isPyWhitespace (s.dropWhile isPyWhitespace).reverse c h

lemma dropWhile_eq_self_of_head (p : Char → Bool) (l : Str)
    (h : ∀ c, l.head? = some c → p c = false) : l.dropWhile p = l := by
  cases l with
  | nil => rfl
  | cons a rest =>
    have := h a (by simp)
    rw [List.dropWhile_cons_of_neg (by simp [this])]

lemma pyStrip_idem (s : Str) : pyStrip (pyStrip s) = pyStrip s := by
  have hA : (pyStrip s).dropWhile isPyWhitespace = pyStrip s :=
    dropWhile_eq_self_of_head _ _ (fun c hc => pyStrip_head s c hc)
  have hB : (pyStrip s).reverse.dropWhile isPyWhitespace = (pyStrip s).reverse := by
    apply dropWhile_eq_self_of_head
    intro c hc
    rw [List.head?_reverse] at hc
    exact pyStrip_getLast s c hc
  show (((pyStrip s).dropWhile isPyWhitespace).reverse.dropWhile isPyWhitespace).reverse
      = pyStrip s
  rw [hA, hB, List.reverse_reverse]

lemma allws_of_pyStrip_nil (s : Str) (h : pyStrip s = []) :
    ∀ c ∈ s, isPyWhitespace c = true := by
  obtain ⟨u, v, hs, hu, hv⟩ := pyStrip_decomp s
  rw [h] at hs
  simp only [List.nil_append] at hs
  intro c hc
  rw [hs] at hc
  rw [List.mem_append] at hc
  rw [List.all_eq_true] at hu hv
  cases hc with
  | inl h1 => exact hu c h1
  | inr h2 => exact hv c h2

lemma pySplitGo_allws (s : Str) (h : ∀ c ∈ s, isPyWhitespace c = true) :
    pySplitGo s [] = [] := by
  induction s with
  | nil => rfl
  | cons c rest ih =>
    have hc := h c (by simp)
    unfold pySplitGo
    rw [if_pos hc]
    simp only [if_pos rfl]
    exact ih (fun d hd => h d (by simp [hd]))

lemma pySplit_eq_nil_of_strip (s : Str) (h : pyStrip s = []) : pySplit s = [] :=
  pySplitGo_allws s (allws_of_pyStrip_nil s h)

lemma pySplitGo_sound (s : Str) :
    ∀ cur, (∀ c ∈ cur, isPyWhitespace c = false) →
    ∀ w ∈ pySplitGo s cur, w ≠ [] ∧ ∀ c ∈ w, isPyWhitespace c = false := by
  induction s with
  | nil =>
    intro cur hcur w hw
    unfold pySplitGo at hw
    by_cases hc : cur = []
    · rw [if_pos hc] at hw; simp at hw
    · rw [if_neg hc] at hw
      simp at hw
      subst hw
      exact ⟨hc, hcur⟩
  | cons c rest ih =>
    intro cur hcur w hw
    unfold pySplitGo at hw
    by_cases hws : isPyWhitespace c
    · rw [if_pos hws] at hw
      by_cases hc : cur = []
      · rw [if_pos hc] at hw
        exact ih [] (by simp) w hw
      · rw [if_neg hc] at hw
        rw [List.mem_cons] at hw
        cases hw with
        | inl h1 => subst h1; exact ⟨hc, hcur⟩
        | inr h2 => exact ih [] (by simp) w h2
    · rw [if_neg hws] at hw
      refine ih (cur ++ [c]) ?_ w hw
      intro d hd
      rw [List.mem_append] at hd
      cases hd with
      | inl h1 => exact hcur d h1
      | inr h2 =>
        simp at h2
        subst h2
        simpa using hws

lemma pySplit_sound (s : Str) (w : Str) (hw : w ∈ pySplit s) :
    w ≠ [] ∧ ∀ c ∈ w, isPyWhitespace c = false :=
  pySplitGo_sound s [] (by simp) w hw

lemma pySplitGo_word (w : Str) (hw : ∀ c ∈ w, isPyWhitespace c = false) :
    ∀ s cur, pySplitGo (w ++ s) cur = pySplitGo s (cur ++ w) := by
  induction w with
  | nil => intro s cur; simp
  | cons c w2 ih =>
    intro s cur
    have hc : isPyWhitespace c = false := hw c (by simp)
    show pySplitGo (c :: (w2 ++ s)) cur = pySplitGo s (cur ++ c :: w2)
    have step : pySplitGo (c :: (w2 ++ s)) cur = pySplitGo (w2 ++ s) (cur ++ [c]) := by
      rw [pySplitGo.eq_def]
      simp [hc]
    rw [step, ih (fun d hd => hw d (by simp [hd])) s (cur ++ [c])]
    simp

lemma pySplit_joinWith (g : List Str)
    (hg : ∀ w ∈ g, w ≠ [] ∧ ∀ c ∈ w, isPyWhitespace c = false) :
    pySplit (joinWith ' ' g) = g := by
  induction g with
  | nil => rfl
  | cons w ws ih =>
    obtain ⟨hwne, hwf⟩ := hg w (by simp)
    cases ws with
    | nil =>
      show pySplitGo (joinWith ' ' [w]) [] = [w]
      have : joinWith ' ' [w] = w ++ [] := by simp [joinWith]
      rw [this, pySplitGo_word w hwf [] []]
      unfold pySplitGo
      rw [if_neg (by simpa using hwne)]
      simp
    | cons w2 ws2 =>
      show pySplitGo (joinWith ' ' (w :: w2 :: ws2)) [] = w :: w2 :: ws2
      have hj : joinWith ' ' (w :: w2 :: ws2) = w ++ ' ' :: joinWith ' ' (w2 :: ws2) := by
        simp [joinWith]
      rw [hj, pySplitGo_word w hwf _ []]
      simp only [List.nil_append]
      unfold pySplitGo
      rw [if_pos (by simp [isPyWhitespace])]
      rw [if_neg (by simpa using hwne)]
      exact congrArg (List.cons w) (ih (fun x hx => hg x (by simp [hx])))

/-! ### Lemmas about the chunker -/

lemma chunkGroups_flatten_aux (n : Nat) :
    ∀ (k : Nat) (l : List Str), l.length ≤ k → (chunkGroups n l).flatten = l := by
  intro k
  induction k with
  | zero =>
    intro l hl
    have : l = [] := List.eq_nil_of_length_eq_zero (Nat.le_zero.mp hl)
    subst this
    simp [chunkGroups]
  | succ k ih =>
    intro l hl
    cases l with
    | nil => simp [chunkGroups]
    | cons w ws =>
      rw [chunkGroups]
      simp only [List.flatten_cons]
      rw [ih (ws.drop (n - 1)) (by simp at hl ⊢; omega)]
      rw [List.cons_append, List.take_append_drop]

lemma chunkGroups_flatten (n : Nat) (l : List Str) : (chunkGroups n l).flatten = l :=
  chunkGroups_flatten_aux n l.length l (Nat.le_refl _)

lemma chunkGroups_length_aux (n : Nat) (hn : 1 ≤ n) :
    ∀ (k : Nat) (l : List Str), l.length ≤ k → ∀ g ∈ chunkGroups n l, g.length ≤ n := by
  intro k
  induction k with
  | zero =>
    intro l hl
    have : l = [] := List.eq_nil_of_length_eq_zero (Nat.le_zero.mp hl)
    subst this
    simp [chunkGroups]
  | succ k ih =>
    intro l hl g hg
    cases l with
    | nil => simp [chunkGroups] at hg
    | cons w ws =>
      rw [chunkGroups] at hg
      rw [List.mem_cons] at hg
      cases hg with
      | inl h1 =>
        subst h1
        simp only [List.length_cons, List.length_take]
        omega
      | inr h2 =>
        exact ih (ws.drop (n - 1)) (by simp at hl ⊢; omega) g h2

lemma chunkGroups_length (n : Nat) (hn : 1 ≤ n) (l : List Str) :
    ∀ g ∈ chunkGroups n l, g.length ≤ n :=
  chunkGroups_length_aux n hn l.length l (Nat.le_refl _)

/-- C7: for a positive maximum word count, the word counts of the chunks sum
to the input's word count, no chunk exceeds the maximum, the chunks are
consecutive groups of the input's words rejoined with single spaces, and the
empty input yields zero chunks. -/
theorem c7_chunking (text : Str) (n : Nat) (hn : 1 ≤ n) :
    ((chunk_text text n).map (fun c => (pySplit c).length)).sum = (pySplit text).length
    ∧ (∀ c ∈ chunk_text text n, (pySplit c).length ≤ n)
    ∧ (∃ groups : List (List Str), groups.flatten = pySplit text
        ∧ chunk_text text n = groups.map (joinWith ' '))
    ∧ chunk_text [] n = [] := by
  have hflat : (chunkGroups n (pySplit text)).flatten = pySplit text :=
    chunkGroups_flatten n _
  have hsoundg : ∀ g ∈ chunkGroups n (pySplit text),
      ∀ w ∈ g, w ≠ [] ∧ ∀ c ∈ w, isPyWhitespace c = false := by
    intro g hg w hw
    apply pySplit_sound text
    rw [← hflat]
    exact List.mem_flatten.mpr ⟨g, hg, hw⟩
  have hre : ∀ g ∈ chunkGroups n (pySplit text), pySplit (joinWith ' ' g) = g :=
    fun g hg => pySplit_joinWith g (hsoundg g hg)
  refine ⟨?_, ?_, ⟨chunkGroups n (pySplit text), hflat, rfl⟩, ?_⟩
  · unfold chunk_text
    rw [List.map_map]
    have hmap : ((chunkGroups n (pySplit text)).map
        ((fun c => (pySplit c).length) ∘ joinWith ' '))
        = (chunkGroups n (pySplit text)).map List.length := by
      apply List.map_congr_left
      intro g hg
      simp only [Function.comp_apply, hre g hg]
    rw [hmap, ← List.length_flatten, hflat]
  · intro c hc
    unfold chunk_text at hc
    rw [List.mem_map] at hc
    obtain ⟨g, hg, rfl⟩ := hc
    rw [hre g hg]
    exact chunkGroups_length n hn _ g hg
  · simp [chunk_text, pySplit, pySplitGo, chunkGroups]

/-- Witness for C7 at a concrete three-word input with a maximum of two
words per chunk. -/
theorem c7_chunking_witness :
    ((chunk_text "one two three".data 2).map (fun c => (pySplit c).length)).sum
      = (pySplit "one two three".data).length :=
  (c7_chunking "one two three".data 2 (by decide)).1

/-! ### Lemmas about the section segmenter -/

lemma flatten_map_newline (c : Char) (ls : List Str) (h : ls ≠ []) :
    (ls.map (fun l => l ++ [c])).flatten = joinWith c ls ++ [c] := by
  induction ls with
  | nil => exact absurd rfl h
  | cons w ws ih =>
    cases ws with
    | nil => simp [joinWith]
    | cons w2 ws2 =>
      have ih2 := ih (by simp)
      simp only [List.map_cons, List.flatten_cons] at ih2 ⊢
      rw [ih2]
      simp [joinWith, List.append_assoc]

lemma loop_no_header (lines : List Str) (h : ∀ l ∈ lines, toHeader l ∉ headerVocab) :
    ∀ acc, splitSectionsLoop lines "SUMMARY".data [("SUMMARY".data, acc)]
      = [("SUMMARY".data, acc ++ (lines.map (fun l => l ++ ['\n'])).flatten)] := by
  induction lines with
  | nil => intro acc; simp [splitSectionsLoop]
  | cons l rest ih =>
    intro acc
    have hl : toHeader l ∉ headerVocab := h l (by simp)
    rw [splitSectionsLoop, if_neg hl]
    have ha : appendLine [("SUMMARY".data, acc)] "SUMMARY".data l
        = [("SUMMARY".data, acc ++ l ++ ['\n'])] := by simp [appendLine]
    rw [ha, ih (fun x hx => h x (by simp [hx])) (acc ++ l ++ ['\n'])]
    simp [List.append_assoc]

/-- C1 (amended): when no line of the input is a section header, every line
belongs to the single catch-all `SUMMARY` section, whose accumulator is the
whole input with a newline appended after every line (the original text plus
one trailing newline).  For inputs that do contain header lines the
round-trip of the original claim fails, because header lines are consumed as
markers and are not accumulated anywhere (see the counterexample). -/
theorem c1_segmentation_amended (text : Str)
    (h : ∀ l ∈ splitNl text, toHeader l ∉ headerVocab) :
    split_sections text = [("SUMMARY".data, text ++ ['\n'])] := by
  unfold split_sections
  rw [loop_no_header (splitNl text) h []]
  rw [flatten_map_newline '\n' (splitNl text) (splitOnChar_ne_nil '\n' text)]
  have : joinWith '\n' (splitNl text) = text := joinWith_splitOnChar '\n' text
  rw [this]
  simp

/-- Witness for the amended C1 at a concrete header-free input. -/
theorem c1_segmentation_amended_witness :
    split_sections "hello\nworld".data = [("SUMMARY".data, "hello\nworld\n".data)] := by
  have h := c1_segmentation_amended "hello\nworld".data (by decide)
  rw [h]
  decide

/-- Counterexample to C1 as stated: for the input consisting of the single
header line `"SKILLS"`, the concatenation of all section accumulators is
empty, so it does not reproduce the original (nonempty) line sequence; the
header line belongs to no accumulator. -/
theorem c1_roundtrip_counterexample :
    ((split_sections "SKILLS".data).map Prod.snd).flatten = []
    ∧ split_sections "SKILLS".data = [("SUMMARY".data, []), ("SKILLS".data, [])]
    ∧ "SKILLS".data ≠ ([] : Str) := by
  refine ⟨?_, ?_, ?_⟩ <;> decide

lemma loop_head_summary (lines : List Str) :
    ∀ (cur v : Str) (rest : List (Str × Str)),
    ∃ v2 rest2, splitSectionsLoop lines cur (("SUMMARY".data, v) :: rest)
      = ("SUMMARY".data, v2) :: rest2 := by
  induction lines with
  | nil => intro cur v rest; exact ⟨v, rest, rfl⟩
  | cons l ls ih =>
    intro cur v rest
    rw [splitSectionsLoop]
    by_cases hl : toHeader l ∈ headerVocab
    · rw [if_pos hl]
      by_cases hk : "SUMMARY".data = toHeader l
      · have hs : setSection (("SUMMARY".data, v) :: rest) (toHeader l)
            = ("SUMMARY".data, []) :: rest := by
          simp [setSection, hk, ← hk]
        rw [hs]
        exact ih _ [] rest
      · have hs : setSection (("SUMMARY".data, v) :: rest) (toHeader l)
            = ("SUMMARY".data, v) :: setSection rest (toHeader l) := by
          simp [setSection, hk]
        rw [hs]
        exact ih _ v _
    · rw [if_neg hl]
      by_cases hk : "SUMMARY".data = cur
      · subst hk
        have hs : appendLine (("SUMMARY".data, v) :: rest) "SUMMARY".data l
            = ("SUMMARY".data, v ++ l ++ ['\n']) :: rest := by
          simp [appendLine]
        rw [hs]
        exact ih _ _ _
      · have hs : appendLine (("SUMMARY".data, v) :: rest) cur l
            = ("SUMMARY".data, v) :: appendLine rest cur l := by
          simp [appendLine, hk]
        rw [hs]
        exact ih _ _ _

/-- C9: for every input text the `SectionMap` starts with the key `SUMMARY`
(the catch-all of this variant), even for the empty input, which yields a
lone `SUMMARY` section holding a single newline. -/
theorem c9_summary_first :
    (∀ text : Str, ∃ v rest, split_sections text = ("SUMMARY".data, v) :: rest)
    ∧ split_sections [] = [("SUMMARY".data, ['\n'])] := by
  constructor
  · intro text
    unfold split_sections
    exact loop_head_summary (splitNl text) _ [] []
  · decide

lemma lookupSec_setSection_self (m : List (Str × Str)) (k : Str) :
    lookupSec (setSection m k) k = some [] := by
  induction m with
  | nil => simp [setSection, lookupSec]
  | cons p rest ih =>
    by_cases hp : p.1 = k
    · simp [setSection, hp, lookupSec]
    · simp only [setSection, if_neg hp]
      rw [lookupSec, if_neg hp]
      exact ih

lemma lookupSec_setSection_ne (m : List (Str × Str)) (k k2 : Str) (h : k2 ≠ k) :
    lookupSec (setSection m k) k2 = lookupSec m k2 := by
  induction m with
  | nil => simp [setSection, lookupSec, if_neg (Ne.symm h)]
  | cons p rest ih =>
    by_cases hp : p.1 = k
    · simp only [setSection, if_pos hp]
      rw [lookupSec, if_neg (Ne.symm h), lookupSec, if_neg (by rw [hp]; exact Ne.symm h)]
    · simp only [setSection, if_neg hp]
      rw [lookupSec, lookupSec]
      by_cases hq : p.1 = k2
      · rw [if_pos hq, if_pos hq]
      · rw [if_neg hq, if_neg hq]
        exact ih

lemma lookupSec_appendLine_self (m : List (Str × Str)) (k l : Str) :
    lookupSec (appendLine m k l) k = (lookupSec m k).map (fun v => v ++ l ++ ['\n']) := by
  induction m with
  | nil => simp [appendLine, lookupSec]
  | cons p rest ih =>
    by_cases hp : p.1 = k
    · simp [appendLine, hp, lookupSec]
    · simp only [appendLine, if_neg hp]
      rw [lookupSec, if_neg hp, lookupSec, if_neg hp]
      exact ih

lemma lookupSec_appendLine_ne (m : List (Str × Str)) (k k2 l : Str) (h : k2 ≠ k) :
    lookupSec (appendLine m k l) k2 = lookupSec m k2 := by
  induction m with
  | nil => simp [appendLine, lookupSec]
  | cons p rest ih =>
    by_cases hp : p.1 = k
    · simp only [appendLine, if_pos hp]
      rw [lookupSec, lookupSec]
      by_cases hq : p.1 = k2
      · exact absurd (hq.symm.trans hp) h
      · rw [if_neg hq, if_neg hq]
    · simp only [appendLine, if_neg hp]
      rw [lookupSec, lookupSec]
      by_cases hq : p.1 = k2
      · rw [if_pos hq, if_pos hq]
      · rw [if_neg hq, if_neg hq]
        exact ih

lemma loop_lookup_congr (h : Str) (lines : List Str) :
    ∀ (cur : Str) (m1 m2 : List (Str × Str)), lookupSec m1 h = lookupSec m2 h →
    lookupSec (splitSectionsLoop lines cur m1) h
      = lookupSec (splitSectionsLoop lines cur m2) h := by
  induction lines with
  | nil => intro cur m1 m2 he; simpa [splitSectionsLoop] using he
  | cons l ls ih =>
    intro cur m1 m2 he
    rw [splitSectionsLoop, splitSectionsLoop]
    by_cases hl : toHeader l ∈ headerVocab
    · rw [if_pos hl, if_pos hl]
      apply ih
      by_cases hk : h = toHeader l
      · rw [← hk, lookupSec_setSection_self, lookupSec_setSection_self]
      · rw [lookupSec_setSection_ne _ _ _ hk, lookupSec_setSection_ne _ _ _ hk]
        exact he
    · rw [if_neg hl, if_neg hl]
      apply ih
      by_cases hk : h = cur
      · subst hk
        rw [lookupSec_appendLine_self, lookupSec_appendLine_self, he]
      · rw [lookupSec_appendLine_ne _ _ _ _ hk, lookupSec_appendLine_ne _ _ _ _ hk]
        exact he

lemma loop_reset (h line : Str) (post : List Str)
    (hvoc : h ∈ headerVocab) (hline : toHeader line = h) :
    ∀ (pre : List Str) (cur : Str) (m : List (Str × Str)),
    lookupSec (splitSectionsLoop (pre ++ line :: post) cur m) h
      = lookupSec (splitSectionsLoop post h [(h, [])]) h := by
  intro pre
  induction pre with
  | nil =>
    intro cur m
    simp only [List.nil_append]
    rw [splitSectionsLoop, hline, if_pos hvoc]
    apply loop_lookup_congr
    rw [lookupSec_setSection_self]
    simp [lookupSec]
  | cons p pre2 ih =>
    intro cur m
    rw [List.cons_append, splitSectionsLoop]
    by_cases hp : toHeader p ∈ headerVocab
    · rw [if_pos hp]
      exact ih _ _
    · rw [if_neg hp]
      exact ih _ _

/-- C10: when a line whose trimmed upper-cased form is a vocabulary header
`h` occurs, the accumulator of section `h` is reset: the final value of
section `h` is exactly what a fresh run over the remaining lines (starting
from an empty `h`-accumulator) produces, so everything accumulated under
earlier occurrences of `h` is discarded from the returned `SectionMap`. -/
theorem c10_duplicate_header_reset (text : Str) (pre post : List Str) (line h : Str)
    (hsplit : splitNl text = pre ++ line :: post)
    (hvoc : h ∈ headerVocab) (hline : toHeader line = h) :
    lookupSec (split_sections text) h
      = lookupSec (splitSectionsLoop post h [(h, [])]) h := by
  unfold split_sections
  rw [hsplit]
  exact loop_reset h line post hvoc hline pre _ _

/-- Witness for C10: in `"SKILLS\nPython\nSKILLS\nSQL"` the second `SKILLS`
header resets the accumulator, so the final `SKILLS` section holds only
`"SQL\n"` and the earlier `"Python"` line is gone. -/
theorem c10_duplicate_header_reset_witness :
    lookupSec (split_sections "SKILLS\nPython\nSKILLS\nSQL".data) "SKILLS".data
      = some "SQL\n".data := by
  have h := c10_duplicate_header_reset "SKILLS\nPython\nSKILLS\nSQL".data
    ["SKILLS".data, "Python".data] ["SQL".data] "SKILLS".data "SKILLS".data
    (by decide) (by decide) (by decide)
  rw [h]
  decide

/-! ### Claims about the keyword matcher, the parser and the extractor -/

/-- C2: a keyword is reported present exactly when the case-insensitive
word-boundary search finds it in the text, with the claim's concrete
examples: `"Python"` matches `"python"`/`"PYTHON"` but not `"pythonic"`,
`["Python","SQL"]` against `"I use python daily"` yields
`present=["Python"], missing=["SQL"]`, and a multi-word keyword matches only
as a contiguous phrase with boundaries at both ends. -/
theorem c2_keyword_matching :
    (∀ (text : Str) (kws : List Str) (kw : Str),
      kw ∈ (check_ats_keywords text kws).1 ↔ kw ∈ kws ∧ wbSearch kw text = true)
    ∧ check_ats_keywords "I use python daily".data ["Python".data, "SQL".data]
        = (["Python".data], ["SQL".data])
    ∧ wbSearch "Python".data "I use PYTHON daily".data = true
    ∧ wbSearch "Python".data "I write pythonic code".data = false
    ∧ wbSearch "machine learning".data "loves machine learning tasks".data = true
    ∧ wbSearch "machine learning".data "does machine learnings".data = false := by
  refine ⟨?_, by decide, by decide, by decide, by decide, by decide⟩
  intro text kws kw
  simp [check_ats_keywords, List.mem_filter]

/-- Counterexample to C5 as stated: the response `"a,a"` parses to
`["a","a"]`, which contains two equal strings, so the keyword sequence is
not deduplicated. -/
theorem c5_dedup_counterexample :
    parse_keywords "a,a".data = ["a".data, "a".data]
    ∧ ¬ (parse_keywords "a,a".data).Nodup := by
  exact ⟨by decide, by decide⟩

/-- C5 (amended): the `KeywordSet` is obtained by splitting the response on
commas (the comma segments reassemble to the response, in order), trimming
each token and discarding empty tokens — every kept token is nonempty and
already stripped — but NO deduplication is performed: duplicate tokens are
retained, as the `"a, a ,,b"` example shows. -/
theorem c5_keyword_parse_amended (response : Str) :
    joinWith ',' (splitOnChar ',' response) = response
    ∧ (parse_keywords response).all (fun t => !(t == []) && (pyStrip t == t)) = true
    ∧ parse_keywords "a, a ,,b".data = ["a".data, "a".data, "b".data] := by
  refine ⟨joinWith_splitOnChar ',' response, ?_, by decide⟩
  rw [List.all_eq_true]
  intro t ht
  unfold parse_keywords at ht
  rw [List.mem_filter] at ht
  obtain ⟨hmem, hne⟩ := ht
  rw [List.mem_map] at hmem
  obtain ⟨u, hu, rfl⟩ := hmem
  rw [Bool.and_eq_true]
  refine ⟨hne, ?_⟩
  rw [beq_iff_eq]
  exact pyStrip_idem u

lemma infer_role_keywords_eq (text : Str) (analyzer : Str → Except Str Str) (r1 : Str)
    (h1 : analyzer (prompt_role text) = Except.ok r1) :
    infer_role_keywords text analyzer =
      match analyzer (prompt_keywords (pyStrip r1)) with
      | Except.error e => Except.error e
      | Except.ok r2 => Except.ok (pyStrip r1, parse_keywords r2, 2) := by
  unfold infer_role_keywords
  rw [h1]

/-- Stub generation capability used to witness the amended C6. -/
def stubAnalyzerC6 : Str → Except Str Str :=
  fun p => if p = prompt_role "x".data then Except.ok " dev ".data
    else Except.ok "sql, api".data

/-- C6 (amended): `infer_role_keywords` has no empty-role short-circuit:
whenever it succeeds it has issued both generation calls (call count 2), and
the keyword-request call is made with whatever role was inferred — even the
empty one — its response being parsed into the keyword list. -/
theorem c6_no_empty_role_short_circuit (text : Str) (analyzer : Str → Except Str Str)
    (role : Str) (kws : List Str) (n : Nat)
    (h : infer_role_keywords text analyzer = Except.ok (role, kws, n)) :
    n = 2 ∧ ∃ r1 r2, analyzer (prompt_role text) = Except.ok r1 ∧ role = pyStrip r1
      ∧ analyzer (prompt_keywords role) = Except.ok r2 ∧ kws = parse_keywords r2 := by
  cases h1 : analyzer (prompt_role text) with
  | error e =>
    exfalso
    unfold infer_role_keywords at h
    rw [h1] at h
    exact Except.noConfusion h
  | ok r1 =>
    rw [infer_role_keywords_eq text analyzer r1 h1] at h
    cases h2 : analyzer (prompt_keywords (pyStrip r1)) with
    | error e =>
      exfalso
      rw [h2] at h
      have h3 : (Except.error e : Except Str (Str × List Str × Nat))
          = Except.ok (role, kws, n) := h
      exact Except.noConfusion h3
    | ok r2 =>
      rw [h2] at h
      have h3 : (Except.ok (pyStrip r1, parse_keywords r2, 2) :
          Except Str (Str × List Str × Nat)) = Except.ok (role, kws, n) := h
      simp only [Except.ok.injEq, Prod.mk.injEq] at h3
      obtain ⟨hrole, hkws, hn⟩ := h3
      subst hrole
      exact ⟨hn.symm, r1, r2, rfl, rfl, h2, hkws.symm⟩

/-- Witness for the amended C6 with a stub generation capability. -/
theorem c6_no_empty_role_short_circuit_witness :
    (2 : Nat) = 2 ∧ ∃ r1 r2,
      stubAnalyzerC6 (prompt_role "x".data) = Except.ok r1
      ∧ "dev".data = pyStrip r1
      ∧ stubAnalyzerC6 (prompt_keywords "dev".data) = Except.ok r2
      ∧ ["sql".data, "api".data] = parse_keywords r2 :=
  c6_no_empty_role_short_circuit "x".data stubAnalyzerC6 "dev".data
    ["sql".data, "api".data] 2 (by rfl)

/-- Counterexample to C6 as stated: with a stub capability that infers an
empty role, `infer_role_keywords` still makes the keyword-request call (two
calls in total) and returns a nonempty `KeywordSet` parsed from that call's
response — there is no empty-role short-circuit in this code. -/
theorem c6_counterexample :
    infer_role_keywords []
      (fun p => if p = prompt_role [] then Except.ok [] else Except.ok "a,b".data)
      = Except.ok ([], ["a".data, "b".data], 2)
    ∧ (["a".data, "b".data] : List Str) ≠ [] := by
  exact ⟨by rfl, by decide⟩

/-- C4: a blank (empty or whitespace-only) section short-circuits to the
fixed "section is missing or empty" message and makes zero generation
calls. -/
theorem c4_blank_section (name text : Str) (analyzer : Str → Except Str Str)
    (h : pyStrip text = []) :
    rewrite_section name text analyzer = (missingMsg name, 0) := by
  unfold rewrite_section
  rw [if_pos h]

/-- Witness for C4 at a whitespace-only section text. -/
theorem c4_blank_section_witness :
    rewrite_section "SKILLS".data "  ".data (fun _ => Except.ok "x".data)
      = (missingMsg "SKILLS".data, 0) :=
  c4_blank_section _ _ _ (by decide)

/-- C8: a document whose declared media type is neither PDF nor DOCX yields
the empty string (no failure). -/
theorem c8_unsupported_media (f : UploadedFile)
    (h1 : f.ftype ≠ pdfMime) (h2 : f.ftype ≠ docxMime) :
    extract_text f = [] := by
  unfold extract_text
  rw [if_neg h1, if_neg h2]

/-- Witness for C8 at a plain-text media type. -/
theorem c8_unsupported_media_witness :
    extract_text ⟨"text/plain".data, ["page text".data], ["para".data]⟩ = [] :=
  c8_unsupported_media _ (by decide) (by decide)

/-! ### Lemmas about in-order containment, for the chunk-error claim -/

lemma containsInOrder_prepend (s t : Str) (xs : List Str)
    (h : containsInOrder t xs) : containsInOrder (s ++ t) xs := by
  cases xs with
  | nil => trivial
  | cons x rest =>
    obtain ⟨a, b, heq, hr⟩ := h
    exact ⟨s ++ a, b, by rw [heq]; simp [List.append_assoc], hr⟩

lemma containsInOrder_concat (xs : List Str) :
    ∀ (ys : List Str) (s t : Str), containsInOrder s xs → containsInOrder t ys →
    containsInOrder (s ++ t) (xs ++ ys) := by
  induction xs with
  | nil =>
    intro ys s t _ ht
    simpa using containsInOrder_prepend s t ys ht
  | cons x rest ih =>
    intro ys s t hs ht
    obtain ⟨a, b, heq, hr⟩ := hs
    refine ⟨a, b ++ t, by rw [heq]; simp [List.append_assoc], ?_⟩
    exact ih ys b t hr ht

lemma subSeg_of_containsInOrder (xs : List Str) :
    ∀ (s x : Str), containsInOrder s xs → x ∈ xs → subSeg x s := by
  induction xs with
  | nil => intro s x _ hx; simp at hx
  | cons x0 rest ih =>
    intro s x h hx
    obtain ⟨a, b, heq, hr⟩ := h
    rw [List.mem_cons] at hx
    cases hx with
    | inl h1 => exact ⟨a, b, by rw [h1]; exact heq⟩
    | inr h2 =>
      obtain ⟨a2, b2, heq2⟩ := ih b x hr h2
      exact ⟨a ++ x0 ++ a2, b2, by rw [heq, heq2]; simp [List.append_assoc]⟩

/-- Piece shape preserved by the final strip: empty head/last or both ends
non-whitespace. -/
def goodPiece (x : Str) : Prop :=
  (∀ c, x.head? = some c → isPyWhitespace c = false)
  ∧ (∀ c, x.getLast? = some c → isPyWhitespace c = false)

lemma goodPiece_pyStrip (s : Str) : goodPiece (pyStrip s) :=
  ⟨fun c hc => pyStrip_head s c hc, fun c hc => pyStrip_getLast s c hc⟩

lemma goodPiece_marker (e : Str) (he1 : pyStrip e = e) (he2 : e ≠ []) :
    goodPiece (errMarker ++ e) := by
  constructor
  · intro c hc
    have hE : (errMarker ++ e).head? = some 'E' := rfl
    rw [hE] at hc
    injection hc with h1
    rw [← h1]
    decide
  · intro c hc
    rw [List.getLast?_append_of_ne_nil errMarker he2] at hc
    have hg := goodPiece_pyStrip e
    rw [he1] at hg
    exact hg.2 c hc

lemma concat_inj (s t : Str) (c d : Char) (h : s ++ [c] = t ++ [d]) : s = t ∧ c = d := by
  have h1 := congrArg List.reverse h
  simp only [List.reverse_append, List.reverse_singleton, List.singleton_append] at h1
  injection h1 with hcd hst
  refine ⟨?_, hcd⟩
  have h2 := congrArg List.reverse hst
  simpa using h2

lemma containsInOrder_drop_ws_head (xs : List Str) :
    ∀ (s : Str) (c : Char), isPyWhitespace c = true → (∀ x ∈ xs, goodPiece x) →
    containsInOrder (c :: s) xs → containsInOrder s xs := by
  induction xs with
  | nil => intro s c _ _ _; trivial
  | cons x rest ih =>
    intro s c hc hgood h
    obtain ⟨a, b, heq, hr⟩ := h
    cases a with
    | nil =>
      rw [List.nil_append] at heq
      cases x with
      | nil =>
        rw [List.nil_append] at heq
        refine ⟨[], s, by simp, ?_⟩
        apply ih s c hc (fun y hy => hgood y (List.mem_cons_of_mem _ hy))
        rw [← heq] at hr
        exact hr
      | cons d ds =>
        exfalso
        rw [List.cons_append] at heq
        injection heq with hcd _
        have hd : isPyWhitespace d = false :=
          (hgood (d :: ds) (List.mem_cons_self _ _)).1 d rfl
        rw [hcd] at hc
        rw [hd] at hc
        exact Bool.noConfusion hc
    | cons a0 a2 =>
      simp only [List.cons_append] at heq
      injection heq with _ h2
      exact ⟨a2, b, h2, hr⟩

lemma containsInOrder_drop_ws_last (xs : List Str) :
    ∀ (s : Str) (c : Char), isPyWhitespace c = true → (∀ x ∈ xs, goodPiece x) →
    containsInOrder (s ++ [c]) xs → containsInOrder s xs := by
  induction xs with
  | nil => intro s c _ _ _; trivial
  | cons x rest ih =>
    intro s c hc hgood h
    obtain ⟨a, b, heq, hr⟩ := h
    rcases List.eq_nil_or_concat b with hb | ⟨b2, d, hb⟩
    · subst hb
      rw [List.append_nil] at heq
      rcases List.eq_nil_or_concat x with hx | ⟨x2, d, hx⟩
      · subst hx
        exact ⟨s, [], by simp, hr⟩
      · rw [List.concat_eq_append] at hx
        subst hx
        exfalso
        rw [← List.append_assoc] at heq
        obtain ⟨_, hcd⟩ := concat_inj s (a ++ x2) c d heq
        have hd : isPyWhitespace d = false :=
          (hgood (x2 ++ [d]) (List.mem_cons_self _ _)).2 d (by
            rw [List.getLast?_append_of_ne_nil x2 (by simp)]
            rfl)
        rw [hcd] at hc
        rw [hd] at hc
        exact Bool.noConfusion hc
    · rw [List.concat_eq_append] at hb
      subst hb
      have heq2 : s ++ [c] = (a ++ x ++ b2) ++ [d] := by
        rw [heq]
        simp [List.append_assoc]
      obtain ⟨hs, hcd⟩ := concat_inj s (a ++ x ++ b2) c d heq2
      refine ⟨a, b2, hs, ?_⟩
      apply ih b2 c hc (fun y hy => hgood y (List.mem_cons_of_mem _ hy))
      rw [hcd]
      exact hr

lemma containsInOrder_drop_ws_prefix (u : Str) :
    ∀ (s : Str) (xs : List Str), u.all isPyWhitespace = true → (∀ x ∈ xs, goodPiece x) →
    containsInOrder (u ++ s) xs → containsInOrder s xs := by
  induction u with
  | nil => intro s xs _ _ h; simpa using h
  | cons c u2 ih =>
    intro s xs hall hgood h
    rw [List.all_cons, Bool.and_eq_true] at hall
    rw [List.cons_append] at h
    have h2 := containsInOrder_drop_ws_head xs (u2 ++ s) c hall.1 hgood h
    exact ih s xs hall.2 hgood h2

lemma containsInOrder_drop_ws_suffix (v : Str) :
    ∀ (s : Str) (xs : List Str), v.all isPyWhitespace = true → (∀ x ∈ xs, goodPiece x) →
    containsInOrder (s ++ v) xs → containsInOrder s xs := by
  induction v using List.reverseRecOn with
  | nil => intro s xs _ _ h; simpa using h
  | append_singleton v2 c ih =>
    intro s xs hall hgood h
    rw [List.all_append, Bool.and_eq_true] at hall
    have hc : isPyWhitespace c = true := by simpa using hall.2
    have h1 : containsInOrder ((s ++ v2) ++ [c]) xs := by
      rw [List.append_assoc]
      exact h
    have h2 := containsInOrder_drop_ws_last xs (s ++ v2) c hc hgood h1
    exact ih s xs hall.1 hgood h2

lemma containsInOrder_pyStrip (s : Str) (xs : List Str)
    (hgood : ∀ x ∈ xs, goodPiece x) (h : containsInOrder s xs) :
    containsInOrder (pyStrip s) xs := by
  obtain ⟨u, v, hs, hu, hv⟩ := pyStrip_decomp s
  rw [hs] at h
  have h1 := containsInOrder_drop_ws_prefix u (pyStrip s ++ v) xs hu hgood h
  exact containsInOrder_drop_ws_suffix v (pyStrip s) xs hv hgood h1

lemma rewriteLoop_fst_append (name : Str) (a : Str → Except Str Str) (l1 : List Str) :
    ∀ l2, (rewriteLoop name a (l1 ++ l2)).1
      = (rewriteLoop name a l1).1 ++ (rewriteLoop name a l2).1 := by
  induction l1 with
  | nil => intro l2; simp [rewriteLoop]
  | cons c rest ih =>
    intro l2
    simp only [List.cons_append, rewriteLoop]
    rw [List.append_eq, ih l2]
    simp [List.append_assoc]

lemma loop_ok_contains (name : Str) (a : Str → Except Str Str) (rs : Str → Str) :
    ∀ (chunks : List Str), (∀ c ∈ chunks, a (mkPrompt name c) = Except.ok (rs c)) →
    containsInOrder (rewriteLoop name a chunks).1
      (chunks.map (fun c => pyStrip (rs c))) := by
  intro chunks
  induction chunks with
  | nil => intro _; trivial
  | cons c rest ih =>
    intro hok
    have hc := hok c (List.mem_cons_self _ _)
    show containsInOrder (rewriteLoop name a (c :: rest)).1
      (pyStrip (rs c) :: rest.map (fun y => pyStrip (rs y)))
    have hl : (rewriteLoop name a (c :: rest)).1
        = (pyStrip (rs c) ++ ['\n']) ++ (rewriteLoop name a rest).1 := by
      simp only [rewriteLoop, hc]
    rw [hl]
    refine ⟨[], ['\n'] ++ (rewriteLoop name a rest).1, by simp [List.append_assoc], ?_⟩
    exact containsInOrder_prepend ['\n'] _ _
      (ih (fun y hy => hok y (List.mem_cons_of_mem _ hy)))

lemma pyStrip_ne_nil_of_chunks (text : Str) (h : chunk_text text 300 ≠ []) :
    ¬ pyStrip text = [] := by
  intro hs
  apply h
  unfold chunk_text
  rw [pySplit_eq_nil_of_strip text hs]
  simp [chunkGroups]

/-- C3: when the section text chunks into several chunks and the generation
call fails on exactly one of them, `rewrite_section` still returns a
feedback string: it contains the literal `"Error analyzing chunk"` marker,
and the marker (followed by the failure description) sits in the failed
chunk's slot while the stripped responses of all other chunks appear around
it in original chunk order. -/
theorem c3_chunk_error_recovery (name text e : Str) (analyzer : Str → Except Str Str)
    (pre post : List Str) (cbad : Str) (rs : Str → Str)
    (hch : chunk_text text 300 = pre ++ cbad :: post)
    (_hlen : 2 ≤ (pre ++ cbad :: post).length)
    (herr : analyzer (mkPrompt name cbad) = Except.error e)
    (hok : ∀ c ∈ pre ++ post, analyzer (mkPrompt name c) = Except.ok (rs c))
    (he1 : pyStrip e = e) (he2 : e ≠ []) :
    subSeg "Error analyzing chunk".data (rewrite_section name text analyzer).1
    ∧ containsInOrder (rewrite_section name text analyzer).1
        (pre.map (fun c => pyStrip (rs c))
          ++ (errMarker ++ e) :: post.map (fun c => pyStrip (rs c))) := by
  have hne : chunk_text text 300 ≠ [] := by rw [hch]; simp
  have hblank := pyStrip_ne_nil_of_chunks text hne
  have hfb : (rewrite_section name text analyzer).1
      = pyStrip (rewriteLoop name analyzer (pre ++ cbad :: post)).1 := by
    unfold rewrite_section
    rw [if_neg hblank, hch]
  have hok1 : ∀ c ∈ pre, analyzer (mkPrompt name c) = Except.ok (rs c) :=
    fun c hc => hok c (List.mem_append_left _ hc)
  have hok2 : ∀ c ∈ post, analyzer (mkPrompt name c) = Except.ok (rs c) :=
    fun c hc => hok c (List.mem_append_right _ hc)
  have hloop : (rewriteLoop name analyzer (pre ++ cbad :: post)).1
      = (rewriteLoop name analyzer pre).1
        ++ ((errMarker ++ e ++ ['\n']) ++ (rewriteLoop name analyzer post).1) := by
    rw [rewriteLoop_fst_append name analyzer pre (cbad :: post)]
    congr 1
    simp [rewriteLoop, herr, List.append_assoc]
  have hcont : containsInOrder (rewriteLoop name analyzer (pre ++ cbad :: post)).1
      (pre.map (fun c => pyStrip (rs c))
        ++ (errMarker ++ e) :: post.map (fun c => pyStrip (rs c))) := by
    rw [hloop]
    apply containsInOrder_concat _ _ _ _ (loop_ok_contains name analyzer rs pre hok1)
    refine ⟨[], ['\n'] ++ (rewriteLoop name analyzer post).1,
      by simp [List.append_assoc], ?_⟩
    exact containsInOrder_prepend ['\n'] _ _
      (loop_ok_contains name analyzer rs post hok2)
  have hgood : ∀ x ∈ pre.map (fun c => pyStrip (rs c))
      ++ (errMarker ++ e) :: post.map (fun c => pyStrip (rs c)), goodPiece x := by
    intro x hx
    rw [List.mem_append] at hx
    cases hx with
    | inl h1 =>
      obtain ⟨cch, _, rfl⟩ := List.mem_map.mp h1
      exact goodPiece_pyStrip _
    | inr h2 =>
      rw [List.mem_cons] at h2
      cases h2 with
      | inl h3 => rw [h3]; exact goodPiece_marker e he1 he2
      | inr h4 =>
        obtain ⟨cch, _, rfl⟩ := List.mem_map.mp h4
        exact goodPiece_pyStrip _
  have htrim := containsInOrder_pyStrip _ _ hgood hcont
  rw [hfb]
  refine ⟨?_, htrim⟩
  have hmem : (errMarker ++ e) ∈ pre.map (fun c => pyStrip (rs c))
      ++ (errMarker ++ e) :: post.map (fun c => pyStrip (rs c)) := by
    rw [List.mem_append]
    right
    exact List.mem_cons_self _ _
  obtain ⟨a, b, hab⟩ := subSeg_of_containsInOrder _ _ _ htrim hmem
  refine ⟨a, ": ".data ++ e ++ b, ?_⟩
  rw [hab]
  have hm : errMarker = "Error analyzing chunk".data ++ ": ".data := by decide
  rw [hm]
  simp [List.append_assoc]

/-- A 300-word chunk of the letter `a`, for the C3 witness. -/
def bigChunk : Str := joinWith ' ' (List.replicate 300 ['a'])

/-- A 301-word section text, which chunks into two chunks at the hardcoded
maximum of 300 words. -/
def bigText : Str := joinWith ' ' (List.replicate 301 ['a'])

/-- Stub generation capability for the C3 witness: fails on the second
chunk's prompt, succeeds elsewhere. -/
def stubAnalyzerC3 : Str → Except Str Str :=
  fun p => if p = mkPrompt "SKILLS".data "a".data then Except.error "boom".data
    else Except.ok "good".data

lemma bigText_chunks : chunk_text bigText 300 = [bigChunk, "a".data] := by
  unfold chunk_text bigText
  rw [pySplit_joinWith (List.replicate 301 ['a']) (by
    intro w hw
    rw [List.mem_replicate] at hw
    rw [hw.2]
    exact ⟨by simp, by decide⟩)]
  rw [show (301 : Nat) = 300 + 1 from rfl, List.replicate_succ]
  rw [chunkGroups]
  rw [List.take_replicate, List.drop_replicate]
  have h1 : (300 : Nat) - 1 = 299 := by norm_num
  rw [h1]
  have h2 : min 299 300 = 299 := by norm_num
  rw [h2]
  have h3 : (300 : Nat) - 299 = 1 := by norm_num
  rw [h3, List.replicate_one]
  rw [chunkGroups, h1]
  rw [show List.take 299 ([] : List Str) = [] from rfl,
    show List.drop 299 ([] : List Str) = [] from rfl]
  rw [show chunkGroups 300 ([] : List Str) = [] from by rw [chunkGroups]]
  rw [show ['a'] :: List.replicate 299 ['a'] = List.replicate 300 ['a'] from by
    rw [← List.replicate_succ]]
  simp only [List.map_cons, List.map_nil]
  rw [show joinWith ' ' [['a']] = "a".data from by decide]
  rfl

/-- Witness for C3: a two-chunk section where the second chunk's generation
call fails. -/
theorem c3_chunk_error_recovery_witness :
    subSeg "Error analyzing chunk".data
      (rewrite_section "SKILLS".data bigText stubAnalyzerC3).1
    ∧ containsInOrder (rewrite_section "SKILLS".data bigText stubAnalyzerC3).1
        ([bigChunk].map (fun c => pyStrip ((fun _ => "good".data) c))
          ++ (errMarker ++ "boom".data)
            :: ([] : List Str).map (fun c => pyStrip ((fun _ => "good".data) c))) :=
  c3_chunk_error_recovery "SKILLS".data bigText "boom".data stubAnalyzerC3
    [bigChunk] [] "a".data (fun _ => "good".data)
    bigText_chunks
    (by decide)
    (by rfl)
    (by
      intro c hc
      simp only [List.append_nil, List.mem_singleton] at hc
      subst hc
      rfl)
    (by decide)
    (by decide)
